import Mathlib

/-!
Verification of the `hecto` text editor core (src/row.rs, src/document.rs,
src/editor.rs) against its natural-language specification.

Shallow embedding conventions:
* A Rust `String` is a `List Char` (its Unicode scalar values).  Byte indices
  are recovered through `Char.utf8Size`, so the byte-index arithmetic of
  `String::remove`, `String::insert`, `String::insert_str` and
  `str::split_at` is modelled faithfully, including the panics on
  out-of-bounds indices and on indices that are not character boundaries.
* Fallible operations (those that can panic in Rust) return `Option`;
  `none` marks a panic.
* Grapheme segmentation (`unicode_segmentation::graphemes(true)`) is modelled
  by the core rule of UAX #29 that is relevant here: a combining mark attaches
  to the preceding cluster, every other character starts a new cluster.  All
  concrete inputs used below contain only ASCII and tabs, where this model
  agrees exactly with the crate.
-/

namespace Hecto

/-- `pub const TAB_WIDTH: u32 = 4;` (src/editor.rs line 17). -/
def TAB_WIDTH : Nat := 4

/-- `" ".repeat(n)` — a run of `n` spaces. -/
def spaces (n : Nat) : List Char := List.replicate n ' '

/-- Whether `c` is a combining mark (Unicode combining-diacritics blocks);
the attachment rule used by the grapheme-segmentation model. -/
def isCombining (c : Char) : Bool :=
  (0x300 ≤ c.toNat && c.toNat ≤ 0x36F) ||
  (0x1AB0 ≤ c.toNat && c.toNat ≤ 0x1AFF) ||
  (0x1DC0 ≤ c.toNat && c.toNat ≤ 0x1DFF) ||
  (0x20D0 ≤ c.toNat && c.toNat ≤ 0x20FF) ||
  (0xFE20 ≤ c.toNat && c.toNat ≤ 0xFE2F)

/-- One step of grapheme clustering: a combining mark joins the cluster in
progress (the head of the accumulator, which is kept in reverse order),
anything else opens a new cluster. -/
def clusterStep (acc : List (List Char)) (c : Char) : List (List Char) :=
  if isCombining c then
    match acc with
    | [] => [[c]]
    | g :: gs => (g ++ [c]) :: gs
  else [c] :: acc

/-- The grapheme clusters of `s`, most recent first. -/
def graphemeClustersRev (s : List Char) : List (List Char) :=
  s.foldl clusterStep []

/-- `s.graphemes(true)` as a list of clusters, in order. -/
def graphemeClusters (s : List Char) : List (List Char) :=
  (graphemeClustersRev s).reverse

/-- `s.graphemes(true).count()`. -/
def graphemeCount (s : List Char) : Nat :=
  (graphemeClustersRev s).length

/-- `Row::char_count` (src/row.rs lines 111-119): occurrences of a character. -/
def charCount : List Char → Char → Nat
  | [], _ => 0
  | c :: rest, t => (if c = t then 1 else 0) + charCount rest t

/-- `String::len` — the UTF-8 byte length. -/
def byteLen (s : List Char) : Nat := (s.map Char.utf8Size).sum

/-- `String::remove(i)` (byte index): `none` models the panic when `i` is out
of bounds or not a character boundary; otherwise removes the character that
starts at byte `i`. -/
def stringRemove : List Char → Nat → Option (List Char)
  | [], _ => none
  | _ :: rest, 0 => some rest
  | c :: rest, i+1 =>
    if i + 1 < c.utf8Size then none
    else (stringRemove rest (i + 1 - c.utf8Size)).map (fun s => c :: s)

/-- `String::insert_str(i, t)` (byte index): `none` models the panic when `i`
is past the end or not a character boundary. -/
def stringInsertStr : List Char → Nat → List Char → Option (List Char)
  | s, 0, t => some (t ++ s)
  | [], _+1, _ => none
  | c :: rest, i+1, t =>
    if i + 1 < c.utf8Size then none
    else (stringInsertStr rest (i + 1 - c.utf8Size) t).map (fun s => c :: s)

/-- `str::split_at(i)` (byte index): `none` models the panic when `i` is past
the end or not a character boundary. -/
def splitAt? : List Char → Nat → Option (List Char × List Char)
  | s, 0 => some ([], s)
  | [], _+1 => none
  | c :: rest, i+1 =>
    if i + 1 < c.utf8Size then none
    else (splitAt? rest (i + 1 - c.utf8Size)).map (fun p => (c :: p.1, p.2))

/-- `struct Row { string: String, len: usize }` (src/row.rs lines 5-9). -/
structure Row where
  string : List Char
  len : Nat
deriving DecidableEq, Repr

/-- `Row::update_len` (src/row.rs lines 121-123): the cached display length is
the grapheme count plus, per tab character, `TAB_WIDTH - 1` extra columns. -/
def updateLen (s : List Char) : Nat :=
  graphemeCount s + charCount s '\t' * (TAB_WIDTH - 1)

/-- `Row::default()`: empty string, `len` 0. -/
def rowDefault : Row := ⟨[], 0⟩

/-- `From<&str> for Row` (src/row.rs lines 11-20). -/
def rowFrom (s : List Char) : Row := ⟨s, updateLen s⟩

/-- What one source character contributes to the stored text under
`Row::push`/`Row::insert`: a tab becomes `TAB_WIDTH` spaces, anything else is
kept.  This is exactly the branch `if c != '\t' { .. } else { .. }`. -/
def tabExpand (c : Char) : List Char :=
  if c = '\t' then spaces TAB_WIDTH else [c]

/-- `Row::push` (src/row.rs lines 46-53): append the character (a tab is
stored as `TAB_WIDTH` spaces), then `update_len`. -/
def rowPush (r : Row) (c : Char) : Row :=
  ⟨r.string ++ tabExpand c, updateLen (r.string ++ tabExpand c)⟩

/-- `Row::push_str` (src/row.rs lines 55-60): push every character, then a
final `update_len`. -/
def rowPushStr (r : Row) (t : List Char) : Row :=
  ⟨(t.foldl rowPush r).string, updateLen (t.foldl rowPush r).string⟩

/-- `Row::insert` (src/row.rs lines 62-69): byte-index insertion; a tab is
stored as `TAB_WIDTH` spaces; `none` models the `String::insert`/`insert_str`
panic on an invalid index. -/
def rowInsert (r : Row) (i : Nat) (c : Char) : Option Row :=
  if c ≠ '\t' then
    (stringInsertStr r.string i [c]).map (fun s => ⟨s, updateLen s⟩)
  else
    (stringInsertStr r.string i (spaces TAB_WIDTH)).map (fun s => ⟨s, updateLen s⟩)

/-- `Row::delete` (src/row.rs lines 71-74): `String::remove` then
`update_len`; `none` models the panic on an invalid byte index. -/
def rowDelete (r : Row) (i : Nat) : Option Row :=
  (stringRemove r.string i).map (fun s => ⟨s, updateLen s⟩)

/-- `Row::clear`/`clear_mut` (src/row.rs lines 76-86). -/
def rowClear (_r : Row) : Row := ⟨[], updateLen []⟩

/-- Rendering of one grapheme cluster inside `Row::render`: the cluster
`"\t"` expands to `TAB_WIDTH` spaces, every other cluster is emitted as is. -/
def renderCluster (g : List Char) : List Char :=
  if g = ['\t'] then spaces TAB_WIDTH else g

/-- `Row::render` (src/row.rs lines 23-40): clamp `end` to the byte length of
the stored string and `start` to `end`, then emit the grapheme clusters
`skip(start).take(end - start)`, expanding tab clusters. -/
def rowRender (r : Row) (start e : Nat) : List Char :=
  let e' := min e (byteLen r.string)
  let s' := min start e'
  ((((graphemeClusters r.string).drop s').take (e' - s')).map renderCluster).flatten

/-- `struct Position { x, y }` (src/editor.rs lines 19-23). -/
structure Position where
  x : Nat
  y : Nat
deriving DecidableEq, Repr

/-- `struct Document { rows, filename, dirty }` (src/document.rs lines 5-10). -/
structure Document where
  rows : List Row
  filename : Option String
  dirty : Bool
deriving DecidableEq, Repr

/-- `Vec::insert(i, v)`: shift everything from position `i` one place to the
right.  Every call site in the source guards `i ≤ len`, where this total
function agrees with `Vec::insert`. -/
def listInsertAt {α : Type} : List α → Nat → α → List α
  | l, 0, v => v :: l
  | [], _+1, v => [v]
  | c :: rest, i+1, v => c :: listInsertAt rest i v

/-- `Document::insert` (src/document.rs lines 41-55).  `none` models the
panic of `self.rows.get_mut(at.y).unwrap()` when `at.y > rows.len()`, and of
`Row::insert` on an invalid index. -/
def docInsert (d : Document) (p : Position) (c : Char) : Option Document :=
  if p.y = d.rows.length then
    some ⟨d.rows ++ [rowPush rowDefault c], d.filename, true⟩
  else
    match d.rows[p.y]? with
    | none => none
    | some row =>
      if p.x = row.len then
        some ⟨d.rows.set p.y (rowPush row c), d.filename, true⟩
      else
        (rowInsert row p.x c).map (fun r => ⟨d.rows.set p.y r, d.filename, true⟩)

/-- `Document::del_char_backward` (src/document.rs lines 57-73).  When
`at.x != 0` and `at.y` is out of range the source deletes from a temporary
default row, whose empty string makes `String::remove` panic (`none`); the
mutation of a temporary row is otherwise discarded. -/
def docDelBackward (d : Document) (p : Position) : Option Document :=
  if p.x ≠ 0 then
    match d.rows[p.y]? with
    | some row => (rowDelete row (p.x - 1)).map
        (fun r => ⟨d.rows.set p.y r, d.filename, true⟩)
    | none => (rowDelete rowDefault (p.x - 1)).map
        (fun _ => ⟨d.rows, d.filename, true⟩)
  else if 0 < p.y then
    let curr := ((d.rows[p.y]?).getD rowDefault).string
    let rows1 :=
      match d.rows[p.y - 1]? with
      | some prev => d.rows.set (p.y - 1) (rowPushStr prev curr)
      | none => d.rows
    some ⟨if p.y < rows1.length then rows1.eraseIdx p.y else rows1, d.filename, true⟩
  else
    some ⟨d.rows, d.filename, true⟩

/-- `Document::del_char_forward` (src/document.rs lines 75-92). -/
def docDelForward (d : Document) (p : Position) : Option Document :=
  let row := (d.rows[p.y]?).getD rowDefault
  if p.x ≠ row.len then
    match d.rows[p.y]? with
    | some rw => (rowDelete rw p.x).map
        (fun r => ⟨d.rows.set p.y r, d.filename, true⟩)
    | none => (rowDelete rowDefault p.x).map
        (fun _ => ⟨d.rows, d.filename, true⟩)
  else if p.y < d.rows.length then
    let next := ((d.rows[p.y + 1]?).getD rowDefault).string
    let rows1 :=
      match d.rows[p.y]? with
      | some rw => d.rows.set p.y (rowPushStr rw next)
      | none => d.rows
    some ⟨if p.y + 1 < rows1.length then rows1.eraseIdx (p.y + 1) else rows1, d.filename, true⟩
  else
    some ⟨d.rows, d.filename, true⟩

/-- `Document::insert_newline` (src/document.rs lines 94-116).  `none` models
the `str::split_at` panic when `at.x` is past the end of the row's bytes or
not a character boundary. -/
def docInsertNewline (d : Document) (p : Position) : Option Document :=
  if d.rows.length ≤ p.y then
    some ⟨d.rows ++ [rowDefault, rowDefault], d.filename, true⟩
  else if p.x = ((d.rows[p.y]?).getD rowDefault).len then
    some ⟨listInsertAt d.rows (p.y + 1) rowDefault, d.filename, true⟩
  else
    match d.rows[p.y]? with
    | none => none
    | some curr =>
      match splitAt? curr.string p.x with
      | none => none
      | some lr =>
        let newRow := rowPushStr rowDefault lr.2
        let currRow := rowPushStr (rowClear curr) lr.1
        some ⟨listInsertAt (d.rows.set p.y currRow) (p.y + 1) newRow, d.filename, true⟩

/-- The text `Document::save` (src/document.rs lines 29-39) writes: every
row's raw string followed by one line feed. -/
def saveContents (rows : List Row) : List Char :=
  (rows.map (fun r => r.string ++ ['\n'])).flatten

/-- `Document::save`.  `fsOk` says whether the file-system operations
succeed; `none` models the propagated I/O error (in which case `dirty` is
never cleared).  On success the result pairs the updated document with the
written file content — `none` content when `filename` is unset, in which case
no file operation is attempted at all and the call cannot fail. -/
def docSave (fsOk : Bool) (d : Document) : Option (Document × Option (List Char)) :=
  match d.filename with
  | none => some (⟨d.rows, d.filename, false⟩, none)
  | some _ =>
    if fsOk then some (⟨d.rows, d.filename, false⟩, some (saveContents d.rows))
    else none

/-- Split on `'\n'`, keeping empty pieces (an auxiliary of `rustLines`). -/
def splitNl : List Char → List (List Char)
  | [] => [[]]
  | c :: rest =>
    let r := splitNl rest
    if c = '\n' then [] :: r
    else
      match r with
      | [] => [[c]]
      | h :: t => (c :: h) :: t

/-- Drop a single trailing carriage return, as `str::lines` does per line. -/
def stripCR (l : List Char) : List Char :=
  if l.getLast? = some '\r' then l.dropLast else l

/-- Rust's `str::lines`: split at every line feed, a final trailing line feed
produces no extra line, and one trailing `'\r'` is removed from each line. -/
def rustLines (s : List Char) : List (List Char) :=
  if s = [] then []
  else
    (if s.getLast? = some '\n' then (splitNl s).dropLast else splitNl s).map stripCR

/-- `Document::open` (src/document.rs lines 18-27), applied to file contents
that were successfully read: one `Row::from` per line, `dirty = false`. -/
def docOpen (filename : String) (contents : List Char) : Document :=
  ⟨(rustLines contents).map rowFrom, some filename, false⟩

/-- The key-event enum consumed by the editor (the constructors
`Editor::move_cursor` dispatches on). -/
inductive Key where
  | left
  | right
  | up
  | down
  | home
  | endKey
  | pageUp
  | pageDown
  | backspace
  | del
  | esc
  | char (c : Char)
  | ctrl (c : Char)
deriving DecidableEq, Repr

/-- The `Key::Left | Key::Ctrl('b')` arm of `Editor::move_cursor`. -/
def mcLeft (doc : Document) (x y : Nat) : Position :=
  if 0 < x then ⟨x - 1, y⟩
  else if 0 < y then ⟨((doc.rows[y - 1]?).getD (rowFrom [])).len, y - 1⟩
  else ⟨x, y⟩

/-- The `Key::Right | Key::Ctrl('f')` arm of `Editor::move_cursor`. -/
def mcRight (_doc : Document) (x y width height : Nat) : Position :=
  if x < width then ⟨x + 1, y⟩
  else if y < height then ⟨0, y + 1⟩
  else ⟨x, y⟩

/-- The `Key::Up | Key::Ctrl('p')` arm of `Editor::move_cursor`. -/
def mcUp (doc : Document) (x y : Nat) : Position :=
  let y' := if 0 < y then y - 1 else y
  let width := ((doc.rows[y']?).getD (rowFrom [])).len
  ⟨if width < x then width else x, y'⟩

/-- The `Key::Down | Key::Ctrl('n')` arm of `Editor::move_cursor`. -/
def mcDown (doc : Document) (x y height : Nat) : Position :=
  let y' := if y < height + 1 then y + 1 else y
  let width := ((doc.rows[y']?).getD (rowFrom [])).len
  ⟨if width < x then width else x, y'⟩

/-- `Editor::move_cursor` (src/editor.rs lines 222-298).  `termHeight` is the
terminal height used by the page-move arms.  `width` is the current row's
display length, `height` is `document.len().saturating_sub(1)`. -/
def moveCursor (key : Key) (pos : Position) (doc : Document) (termHeight : Nat) : Position :=
  let x := pos.x
  let y := pos.y
  let width := ((doc.rows[y]?).getD (rowFrom [])).len
  let height := doc.rows.length - 1
  match key with
  | .left => mcLeft doc x y
  | .right => mcRight doc x y width height
  | .up => mcUp doc x y
  | .down => mcDown doc x y height
  | .ctrl c =>
    if c = 'b' then mcLeft doc x y
    else if c = 'f' then mcRight doc x y width height
    else if c = 'p' then mcUp doc x y
    else if c = 'n' then mcDown doc x y height
    else if c = 'e' then ⟨width, y⟩
    else if c = 'a' then ⟨0, y⟩
    else ⟨x, y⟩
  | .home => ⟨((doc.rows[0]?).getD (rowFrom [])).len, 0⟩
  | .endKey => ⟨0, height + 1⟩
  | .pageUp => ⟨x, y + 3 - termHeight⟩
  | .pageDown =>
    if y + termHeight - 3 < doc.rows.length then ⟨x, y + termHeight - 3⟩
    else ⟨x, doc.rows.length⟩
  | _ => ⟨x, y⟩

/-- `Editor::scroll` (src/editor.rs lines 203-220): the visible window is
`termH - 2` lines by `termW` columns; an offset coordinate jumps back to the
cursor when the cursor is before it and advances to `cursor - window + 1`
when the cursor is at or past its far edge. -/
def editorScroll (cursor : Position) (termW termH : Nat) (off : Position) : Position :=
  let width := termW
  let height := termH - 2
  let oy :=
    if cursor.y < off.y then cursor.y
    else if off.y + height ≤ cursor.y then cursor.y - height + 1
    else off.y
  let ox :=
    if cursor.x < off.x then cursor.x
    else if off.x + width ≤ cursor.x then cursor.x - width + 1
    else off.x
  ⟨ox, oy⟩

/-- Modelled from the spec: `render(start, end)` "returns the visible slice
between display-column `start` and `end` (columns, not bytes), clamped so
`end <= len()` and `start <= end`; any tab cluster inside the range expands
to `tab_width` spaces in the output" — i.e. the slice of the fully rendered
(tab-expanded) text between display columns `start` and `end`, with `end`
clamped to the display length `len()`. -/
def renderSpec (r : Row) (start e : Nat) : List Char :=
  let full := ((graphemeClusters r.string).map renderCluster).flatten
  let e' := min e r.len
  let s' := min start e'
  (full.drop s').take (e' - s')

/-- What `Row::render` actually computes, stated independently: clamp `end`
to the byte length and `start` to `end`, then take the whole grapheme
clusters with grapheme indices in `[start, end)`, rendering each (tabs
expand, clusters are never split). -/
def renderByGraphemeIndex (r : Row) (start e : Nat) : List Char :=
  let e' := min e (byteLen r.string)
  let s' := min start e'
  ((((graphemeClusters r.string).map renderCluster).drop s').take (e' - s')).flatten

/-- Strings of one-byte, non-combining, non-tab characters: on these, display
columns, grapheme indices, character indices and byte indices all agree. -/
def simpleChars (s : List Char) : Bool :=
  s.all fun c => (c.utf8Size == 1) && !isCombining c && (c != '\t')

/-! ### Helper lemmas -/

theorem charCount_append (s t : List Char) (c : Char) :
    charCount (s ++ t) c = charCount s c + charCount t c := by
  induction s with
  | nil => simp [charCount]
  | cons a s ih => simp [charCount, ih]; omega

theorem charCount_eq_count (s : List Char) (c : Char) :
    charCount s c = s.count c := by
  induction s with
  | nil => simp [charCount]
  | cons a s ih =>
    by_cases h : a = c <;> simp [charCount, h, ih, List.count_cons] <;> omega

theorem charCount_spaces (n : Nat) : charCount (spaces n) '\t' = 0 := by
  induction n with
  | zero => simp [spaces, charCount]
  | succ n ih => simpa [spaces, charCount, List.replicate_succ] using ih

theorem foldl_clusterStep_length (t : List Char) (acc : List (List Char))
    (h : ∀ c ∈ t, isCombining c = false) :
    (List.foldl clusterStep acc t).length = acc.length + t.length := by
  induction t generalizing acc with
  | nil => simp
  | cons a t ih =>
    have ha : isCombining a = false := h a (by simp)
    rw [List.foldl_cons, show clusterStep acc a = [a] :: acc by simp [clusterStep, ha],
      ih ([a] :: acc) (fun c hc => h c (by simp [hc]))]
    simp
    omega

theorem graphemeCount_append_simple (s t : List Char)
    (h : ∀ c ∈ t, isCombining c = false) :
    graphemeCount (s ++ t) = graphemeCount s + t.length := by
  unfold graphemeCount graphemeClustersRev
  rw [List.foldl_append]
  exact foldl_clusterStep_length t _ h

theorem isCombining_space : isCombining ' ' = false := by decide

theorem updateLen_append_spaces (s : List Char) (n : Nat) :
    updateLen (s ++ spaces n) = updateLen s + n := by
  unfold updateLen
  rw [graphemeCount_append_simple s (spaces n)
        (fun c hc => by
          have : c = ' ' := (List.eq_of_mem_replicate hc)
          simp [this, isCombining_space]),
      charCount_append, charCount_spaces]
  simp [spaces]
  omega

theorem pushStr_foldl_string (t : List Char) (r : Row) :
    (t.foldl rowPush r).string = r.string ++ t.flatMap tabExpand := by
  induction t generalizing r with
  | nil => simp
  | cons a t ih => simp [rowPush, ih, List.flatMap_cons, List.append_assoc]

theorem rowPushStr_string (r : Row) (t : List Char) :
    rowPushStr r t =
      ⟨r.string ++ t.flatMap tabExpand, updateLen (r.string ++ t.flatMap tabExpand)⟩ := by
  simp [rowPushStr, pushStr_foldl_string]

theorem flatMap_tabExpand_no_tab (t : List Char) (h : charCount t '\t' = 0) :
    t.flatMap tabExpand = t := by
  induction t with
  | nil => simp
  | cons a t ih =>
    simp only [charCount] at h
    have ha : ¬ a = '\t' := by
      intro hq; simp [hq] at h
    have ht : charCount t '\t' = 0 := by
      simp [ha] at h; omega
    simp [List.flatMap_cons, tabExpand, ha, ih ht]

theorem rowPushStr_no_tab (r : Row) (t : List Char) (h : charCount t '\t' = 0) :
    rowPushStr r t = ⟨r.string ++ t, updateLen (r.string ++ t)⟩ := by
  rw [rowPushStr_string, flatMap_tabExpand_no_tab t h]

theorem splitAt?_append (s : List Char) (i : Nat) (l r : List Char)
    (h : splitAt? s i = some (l, r)) : l ++ r = s := by
  induction s generalizing i l r with
  | nil =>
    cases i with
    | zero =>
      simp only [splitAt?, Option.some_inj, Prod.mk.injEq] at h
      rw [h.1.symm, h.2.symm]
      rfl
    | succ i => simp [splitAt?] at h
  | cons c rest ih =>
    cases i with
    | zero =>
      simp only [splitAt?, Option.some_inj, Prod.mk.injEq] at h
      rw [h.1.symm, h.2.symm]
      rfl
    | succ i =>
      simp only [splitAt?] at h
      by_cases hb : i + 1 < c.utf8Size
      · simp [hb] at h
      · simp only [hb, if_false, Option.map_eq_some'] at h
        obtain ⟨p, hp, hpe⟩ := h
        cases hpe
        simpa using ih (i + 1 - c.utf8Size) p.1 p.2 (by simpa using hp)

theorem stringInsertStr_spec (s : List Char) (i : Nat) (t s' : List Char)
    (h : stringInsertStr s i t = some s') :
    ∃ l r, s = l ++ r ∧ s' = l ++ t ++ r ∧ (0 < i → l ≠ []) := by
  induction s generalizing i s' with
  | nil =>
    cases i with
    | zero =>
      refine ⟨[], [], by simp, ?_, by simp⟩
      simp [stringInsertStr] at h
      simp [h.symm]
    | succ i => simp [stringInsertStr] at h
  | cons c rest ih =>
    cases i with
    | zero =>
      refine ⟨[], c :: rest, by simp, ?_, by simp⟩
      simp [stringInsertStr] at h
      simp [h.symm]
    | succ i =>
      simp only [stringInsertStr] at h
      by_cases hb : i + 1 < c.utf8Size
      · simp [hb] at h
      · simp only [hb, if_false, Option.map_eq_some'] at h
        obtain ⟨p, hp, hpe⟩ := h
        obtain ⟨l, r, hs, hs', _⟩ := ih (i + 1 - c.utf8Size) p hp
        exact ⟨c :: l, r, by simp [hs], by simp [hpe.symm, hs'], by simp⟩

theorem getElem?_mid {α : Type} (pre : List α) (a : α) (rest : List α) :
    (pre ++ a :: rest)[pre.length]? = some a := by
  induction pre with
  | nil => simp
  | cons b pre ih => simpa using ih

theorem getElem?_mid_succ {α : Type} (pre : List α) (a b : α) (rest : List α) :
    (pre ++ a :: b :: rest)[pre.length + 1]? = some b := by
  have := getElem?_mid (pre ++ [a]) b rest
  simpa [List.append_assoc] using this

theorem set_mid {α : Type} (pre : List α) (a : α) (rest : List α) (v : α) :
    (pre ++ a :: rest).set pre.length v = pre ++ v :: rest := by
  induction pre with
  | nil => simp
  | cons b pre ih => simpa using ih

theorem listInsertAt_mid {α : Type} (pre : List α) (a : α) (rest : List α) (v : α) :
    listInsertAt (pre ++ a :: rest) (pre.length + 1) v = pre ++ a :: v :: rest := by
  induction pre with
  | nil => simp [listInsertAt]
  | cons b pre ih => simpa [listInsertAt] using ih

theorem eraseIdx_mid {α : Type} (pre : List α) (a b : α) (rest : List α) :
    (pre ++ a :: b :: rest).eraseIdx (pre.length + 1) = pre ++ a :: rest := by
  induction pre with
  | nil => simp [List.eraseIdx]
  | cons c pre ih => simpa [List.eraseIdx] using ih

theorem foldl_clusterStep_simple (s : List Char) (acc : List (List Char))
    (h : ∀ c ∈ s, isCombining c = false) :
    List.foldl clusterStep acc s = (s.map fun c => [c]).reverse ++ acc := by
  induction s generalizing acc with
  | nil => simp
  | cons a s ih =>
    have ha : isCombining a = false := h a (by simp)
    rw [List.foldl_cons, show clusterStep acc a = [a] :: acc by simp [clusterStep, ha],
      ih ([a] :: acc) (fun c hc => h c (by simp [hc]))]
    simp

theorem graphemeClusters_simple (s : List Char)
    (h : ∀ c ∈ s, isCombining c = false) :
    graphemeClusters s = s.map fun c => [c] := by
  unfold graphemeClusters graphemeClustersRev
  rw [foldl_clusterStep_simple s [] h]
  simp

theorem graphemeCount_simple (s : List Char)
    (h : ∀ c ∈ s, isCombining c = false) :
    graphemeCount s = s.length := by
  unfold graphemeCount graphemeClustersRev
  rw [foldl_clusterStep_simple s [] h]
  simp

theorem byteLen_all_one (s : List Char) (h : ∀ c ∈ s, c.utf8Size = 1) :
    byteLen s = s.length := by
  induction s with
  | nil => simp [byteLen]
  | cons a s ih =>
    have := h a (by simp)
    simp only [byteLen, List.map_cons, List.sum_cons, this] at *
    rw [ih (fun c hc => h c (by simp [hc]))]
    simp [Nat.add_comm]

theorem charCount_zero_of_not_mem (s : List Char) (c : Char) (h : c ∉ s) :
    charCount s c = 0 := by
  rw [charCount_eq_count]
  exact List.count_eq_zero.mpr h

theorem flatten_singletons (l : List Char) :
    ((l.map fun c => [c]).flatten) = l := by
  induction l with
  | nil => simp
  | cons a l ih => simp [ih]

theorem simpleChars_facts (s : List Char) (h : simpleChars s = true) :
    (∀ c ∈ s, isCombining c = false) ∧ (∀ c ∈ s, c.utf8Size = 1) ∧ '\t' ∉ s := by
  simp only [simpleChars, List.all_eq_true, Bool.and_eq_true, beq_iff_eq,
    Bool.not_eq_true', bne_iff_ne, ne_eq] at h
  refine ⟨fun c hc => (h c hc).1.2, fun c hc => (h c hc).1.1, fun hm => ?_⟩
  exact (h '\t' hm).2 rfl

theorem clusterStep_ne_nil (acc : List (List Char)) (c : Char) :
    clusterStep acc c ≠ [] := by
  unfold clusterStep
  split
  · cases acc <;> simp
  · simp

theorem foldl_clusterStep_ne_nil (s : List Char) (acc : List (List Char))
    (h : s ≠ [] ∨ acc ≠ []) :
    List.foldl clusterStep acc s ≠ [] := by
  induction s generalizing acc with
  | nil =>
    rcases h with h | h
    · exact absurd rfl h
    · simpa using h
  | cons a s ih =>
    rw [List.foldl_cons]
    exact ih (clusterStep acc a) (Or.inr (clusterStep_ne_nil acc a))

/-- Once a cluster is in progress, processing `s` adds exactly one cluster
per non-combining character: a combining mark only lengthens the cluster in
progress and never opens one. -/
theorem foldl_clusterStep_length_ne (s : List Char) (acc : List (List Char))
    (h : acc ≠ []) :
    (List.foldl clusterStep acc s).length =
      acc.length + (s.filter fun c => !isCombining c).length := by
  induction s generalizing acc with
  | nil => simp
  | cons a s ih =>
    cases ha : isCombining a with
    | true =>
      obtain ⟨g, gs, hacc⟩ := List.exists_cons_of_ne_nil h
      subst hacc
      rw [List.foldl_cons,
        show clusterStep (g :: gs) a = (g ++ [a]) :: gs by simp [clusterStep, ha],
        ih ((g ++ [a]) :: gs) (by simp)]
      simp [List.filter_cons, ha]
    | false =>
      rw [List.foldl_cons, show clusterStep acc a = [a] :: acc by simp [clusterStep, ha],
        ih ([a] :: acc) (by simp)]
      simp [List.filter_cons, ha]
      omega

theorem graphemeCount_append_ne (x y : List Char) (hx : x ≠ []) :
    graphemeCount (x ++ y) = graphemeCount x + (y.filter fun c => !isCombining c).length := by
  unfold graphemeCount graphemeClustersRev
  rw [List.foldl_append]
  exact foldl_clusterStep_length_ne y _ (foldl_clusterStep_ne_nil x [] (Or.inl hx))

theorem graphemeCount_head_simple (c : Char) (t : List Char)
    (hc : isCombining c = false) :
    graphemeCount (c :: t) = ((c :: t).filter fun x => !isCombining x).length := by
  unfold graphemeCount graphemeClustersRev
  rw [List.foldl_cons, show clusterStep [] c = [[c]] by simp [clusterStep, hc],
    foldl_clusterStep_length_ne t [[c]] (by simp)]
  simp [List.filter_cons, hc]
  omega

/-- Splicing `TAB_WIDTH` spaces into a string adds exactly `TAB_WIDTH` to its
display length, unless the spaces land at position 0 right before a combining
mark (which would stop being its own cluster and attach to a space). -/
theorem updateLen_middle_spaces (l r : List Char)
    (h : l ≠ [] ∨ (∀ c, r.head? = some c → isCombining c = false)) :
    updateLen (l ++ (spaces TAB_WIDTH ++ r)) = updateLen (l ++ r) + TAB_WIDTH := by
  have hsp : ((spaces TAB_WIDTH).filter fun c => !isCombining c).length = TAB_WIDTH := by
    decide
  have hc1 : charCount (l ++ (spaces TAB_WIDTH ++ r)) '\t' = charCount (l ++ r) '\t' := by
    rw [charCount_append, charCount_append, charCount_append, charCount_spaces]
    omega
  have hg : graphemeCount (l ++ (spaces TAB_WIDTH ++ r)) =
      graphemeCount (l ++ r) + TAB_WIDTH := by
    cases l with
    | cons a l' =>
      rw [graphemeCount_append_ne (a :: l') _ (by simp),
        graphemeCount_append_ne (a :: l') r (by simp), List.filter_append,
        List.length_append, hsp]
      omega
    | nil =>
      simp only [List.nil_append]
      rw [graphemeCount_append_ne (spaces TAB_WIDTH) r (by decide),
        show graphemeCount (spaces TAB_WIDTH) = TAB_WIDTH by decide]
      cases r with
      | nil => simp [graphemeCount, graphemeClustersRev]
      | cons c t =>
        have hc : isCombining c = false := by
          rcases h with h | h
          · exact absurd rfl h
          · exact h c rfl
        rw [graphemeCount_head_simple c t hc]
        omega
  unfold updateLen
  rw [hg, hc1]
  omega

/-! ### C1 — out-of-bounds edits -/

/-- C1: the claim that an out-of-bounds `Row::delete` or `Document::insert`
"never panics and degrades to a no-op" is violated by the code:
`Row::delete` forwards an out-of-bounds index to `String::remove`, which
panics, and `Document::insert` at `y > rows.len()` calls
`self.rows.get_mut(at.y).unwrap()` on `None`, which panics.  Both panics are
modelled by `none`. -/
theorem c1_out_of_bounds_edit_panics :
    rowDelete (rowFrom ("a".data)) 1 = none ∧
    docInsert ⟨[], none, false⟩ ⟨0, 2⟩ 'q' = none := by
  constructor
  · rfl
  · rfl

/-! ### C2 — `Row::from(s).len()` -/

/-- C2: for every string `s`, `Row::from(s).len()` equals the grapheme count
of `s` plus `k * (TAB_WIDTH - 1)` where `k` is the number of tab characters
in `s`; for strings all of whose grapheme clusters are single characters and
which contain no tab, it equals the grapheme count. -/
theorem c2_row_from_len (s : List Char) :
    (rowFrom s).len = graphemeCount s + s.count '\t' * (TAB_WIDTH - 1) ∧
    ((∀ g ∈ graphemeClusters s, g.length = 1) → s.count '\t' = 0 →
      (rowFrom s).len = graphemeCount s) := by
  constructor
  · simp [rowFrom, updateLen, charCount_eq_count]
  · intro _ ht
    simp [rowFrom, updateLen, charCount_eq_count, ht]

/-- Witness for C2 at concrete inputs. -/
theorem c2_row_from_len_witness :
    (rowFrom ("ab".data)).len = graphemeCount ("ab".data) :=
  (c2_row_from_len ("ab".data)).2 (by decide) (by decide)

/-! ### C3 — `Row::render` -/

/-- C3 counterexample: `render` does not slice by display columns clamped to
`len()`.  For the row `"a\tb"` (display length 6, with `"b"` occupying
display column 5) the display-column slice `[5, 6)` is `"b"`, but the code
clamps `end` to the byte length 3 and then also `start` to it, returning the
empty string. -/
theorem c3_render_counterexample :
    rowRender (rowFrom ("a\tb".data)) 5 6 = [] ∧
    renderSpec (rowFrom ("a\tb".data)) 5 6 = ['b'] ∧
    rowRender (rowFrom ("a\tb".data)) 5 6 ≠ renderSpec (rowFrom ("a\tb".data)) 5 6 := by
  refine ⟨by rfl, by rfl, by decide⟩

/-- C3 amended: `render(start, end)` clamps `end` to the row's byte length
(not its display length) and `start` to `end`, and then returns the grapheme
clusters with grapheme indices (not display columns) in `[start, end)`, each
tab cluster expanded to `TAB_WIDTH` spaces and no cluster ever split; on
rows of one-byte, non-combining, non-tab characters this agrees with the
spec's display-column slicing. -/
theorem c3_render_amended (s : List Char) (a b : Nat) :
    rowRender (rowFrom s) a b = renderByGraphemeIndex (rowFrom s) a b ∧
    (simpleChars s = true → rowRender (rowFrom s) a b = renderSpec (rowFrom s) a b) := by
  constructor
  · simp [rowRender, renderByGraphemeIndex, rowFrom, List.map_take, List.map_drop]
  · intro h
    obtain ⟨hcomb, hsize, htab⟩ := simpleChars_facts s h
    have hclusters := graphemeClusters_simple s hcomb
    have hbyte := byteLen_all_one s hsize
    have hcount := graphemeCount_simple s hcomb
    have hlen : updateLen s = s.length := by
      simp [updateLen, hcount, charCount_zero_of_not_mem s '\t' htab]
    have hrender : ∀ l : List Char, (∀ c ∈ l, c ∈ s) →
        (l.map fun c => [c]).map renderCluster = l.map fun c => [c] := by
      intro l hl
      rw [List.map_map]
      refine List.map_congr_left (fun c hc => ?_)
      have : ¬ c = '\t' := fun he => htab (he ▸ hl c hc)
      simp [renderCluster, this]
    simp only [rowRender, renderSpec, rowFrom, hclusters, hbyte, hlen]
    rw [hrender s (fun c hc => hc), flatten_singletons]
    have hdt : ∀ n m : Nat,
        List.take m (List.drop n (List.map (fun c => ([c] : List Char)) s)) =
          List.map (fun c => [c]) (List.take m (List.drop n s)) := by
      intro n m
      rw [← List.map_drop, ← List.map_take]
    rw [hdt, hrender _ (fun c hc => List.mem_of_mem_drop (List.mem_of_mem_take hc)),
      flatten_singletons]

/-- Witness for C3's amended theorem at a concrete simple row. -/
theorem c3_render_amended_witness :
    rowRender (rowFrom ("abc".data)) 1 2 = renderSpec (rowFrom ("abc".data)) 1 2 :=
  (c3_render_amended ("abc".data) 1 2).2 (by decide)

/-! ### C4 — pushing/inserting a tab -/

/-- C4 counterexample: pushing `'\t'` onto an empty row does not store a
single tab character — it stores `TAB_WIDTH` spaces, so the stored character
count (4) equals the display length (4) instead of differing from it by
`TAB_WIDTH - 1`. -/
theorem c4_tab_counterexample :
    charCount (rowPush (rowFrom []) '\t').string '\t' = 0 ∧
    (rowPush (rowFrom []) '\t').string.length = (rowPush (rowFrom []) '\t').len ∧
    ¬ (rowPush (rowFrom []) '\t').string.length + (TAB_WIDTH - 1) =
        (rowPush (rowFrom []) '\t').len := by
  refine ⟨by rfl, by rfl, by decide⟩

/-- C4 amended: pushing `'\t'` stores `TAB_WIDTH` space characters rather
than one tab, growing both the stored character count and the display length
by `TAB_WIDTH`, so their difference is unchanged rather than becoming
`TAB_WIDTH - 1`.  Inserting `'\t'` likewise stores `TAB_WIDTH` spaces,
growing the stored character count by `TAB_WIDTH` and leaving the stored tab
count unchanged; the display length also grows by `TAB_WIDTH` unless the
insertion is at byte 0 of a row whose text starts with a combining mark — in
that corner case the mark attaches to the last inserted space and the
display length grows by only `TAB_WIDTH - 1`, exhibited in the final
conjunct at U+0301. -/
theorem c4_tab_amended (s : List Char) (i : Nat) :
    (rowPush (rowFrom s) '\t').string = s ++ spaces TAB_WIDTH ∧
    (rowPush (rowFrom s) '\t').len = (rowFrom s).len + TAB_WIDTH ∧
    charCount (rowPush (rowFrom s) '\t').string '\t' = charCount s '\t' ∧
    (∀ r', rowInsert (rowFrom s) i '\t' = some r' →
      r'.string.length = s.length + TAB_WIDTH ∧
      charCount r'.string '\t' = charCount s '\t' ∧
      ((i ≠ 0 ∨ (∀ c, s.head? = some c → isCombining c = false)) →
        r'.len = (rowFrom s).len + TAB_WIDTH)) ∧
    (rowInsert (rowFrom [Char.ofNat 0x301]) 0 '\t').map Row.len =
      some ((rowFrom [Char.ofNat 0x301]).len + (TAB_WIDTH - 1)) := by
  refine ⟨by simp [rowPush, rowFrom, tabExpand], ?_, ?_, ?_, by rfl⟩
  · simp [rowPush, rowFrom, tabExpand, updateLen_append_spaces]
  · simp [rowPush, rowFrom, tabExpand, charCount_append, charCount_spaces]
  · intro r' h
    simp only [rowInsert, rowFrom, if_neg, ne_eq, not_true_eq_false, if_false,
      Option.map_eq_some'] at h
    obtain ⟨s', hs', he⟩ := h
    obtain ⟨l, r, hsplit, hres, hl0⟩ := stringInsertStr_spec s i (spaces TAB_WIDTH) s' hs'
    subst he
    refine ⟨?_, ?_, ?_⟩
    · simp [hres, hsplit, spaces]
      omega
    · simp [hres, hsplit, charCount_append, charCount_spaces]
    · intro hcond
      show updateLen s' = updateLen s + TAB_WIDTH
      rw [hres, hsplit, List.append_assoc]
      refine updateLen_middle_spaces l r ?_
      cases l with
      | cons a l' => exact Or.inl (by simp)
      | nil =>
        rcases hcond with hi | hh
        · exact absurd (hl0 (Nat.pos_of_ne_zero hi)) (by simp)
        · refine Or.inr (fun c hc => hh c ?_)
          rw [hsplit]
          simpa using hc

/-- Witness for C4's amended theorem: inserting a tab into `"ab"` at byte
index 1 yields `"a    b"`, growing stored count and display length by
`TAB_WIDTH` and storing no tab. -/
theorem c4_tab_amended_witness :
    (Row.mk ("a    b".data) 6).string.length = ("ab".data).length + TAB_WIDTH ∧
    charCount (Row.mk ("a    b".data) 6).string '\t' = charCount ("ab".data) '\t' ∧
    (Row.mk ("a    b".data) 6).len = (rowFrom ("ab".data)).len + TAB_WIDTH :=
  ⟨((c4_tab_amended ("ab".data) 1).2.2.2.1 (Row.mk ("a    b".data) 6) (by rfl)).1,
   ((c4_tab_amended ("ab".data) 1).2.2.2.1 (Row.mk ("a    b".data) 6) (by rfl)).2.1,
   ((c4_tab_amended ("ab".data) 1).2.2.2.1 (Row.mk ("a    b".data) 6) (by rfl)).2.2
     (Or.inl (by decide))⟩

/-! ### C5 — line-start / line-end key actions -/

/-- C5 counterexample: taking the spec's identification of the line-start /
line-end actions with the `Home`/`End` keys, the claim fails: on the document
`["abc", "d"]` with the cursor at `{x:1, y:1}`, `Home` moves to `{x:3, y:0}`
(the end of the first row — neither `x = 0` nor `y` unchanged) and `End`
moves to `{x:0, y:2}` (not the current row's width 1, and `y` changes). -/
theorem c5_home_end_counterexample :
    moveCursor Key.home ⟨1, 1⟩
      ⟨[rowFrom ("abc".data), rowFrom ("d".data)], none, false⟩ 10 = ⟨3, 0⟩ ∧
    moveCursor Key.endKey ⟨1, 1⟩
      ⟨[rowFrom ("abc".data), rowFrom ("d".data)], none, false⟩ 10 = ⟨0, 2⟩ ∧
    (Position.mk 3 0 ≠ Position.mk 0 1) ∧
    (Position.mk 0 2 ≠ Position.mk 1 1) := by
  refine ⟨by rfl, by rfl, by decide, by decide⟩

/-- C5 amended: the line-start and line-end semantics are provided by
`Ctrl-a` (sets `x` to 0, `y` unchanged) and `Ctrl-e` (sets `x` to the
current row's display width, `y` unchanged); the `Home` key instead jumps to
the end of the first row (`y = 0`, `x` = row 0's width) and the `End` key
jumps to column 0 of the line with index `rows.len().saturating_sub(1) + 1`. -/
theorem c5_line_start_end_amended (pos : Position) (doc : Document) (th : Nat) :
    moveCursor (Key.ctrl 'a') pos doc th = ⟨0, pos.y⟩ ∧
    moveCursor (Key.ctrl 'e') pos doc th =
      ⟨((doc.rows[pos.y]?).getD (rowFrom [])).len, pos.y⟩ ∧
    moveCursor Key.home pos doc th = ⟨((doc.rows[0]?).getD (rowFrom [])).len, 0⟩ ∧
    moveCursor Key.endKey pos doc th = ⟨0, (doc.rows.length - 1) + 1⟩ :=
  ⟨rfl, rfl, rfl, rfl⟩

/-! ### C7 — scroll recomputation -/

/-- C7: after `Editor::scroll` with a terminal of `termW` columns and `termH`
lines (so a visible window of `termH - 2` lines), a cursor above the window
pulls the offset's `y` down to exactly the cursor's `y`; a cursor below the
window's last line by `k` lines pushes the offset's `y` up by exactly `k`;
and symmetrically for `x` against the window width `termW`. -/
theorem c7_scroll (cur off : Position) (termW termH k kx : Nat) :
    (cur.y < off.y → (editorScroll cur termW termH off).y = cur.y) ∧
    (cur.y + 1 = off.y + (termH - 2) + k → 1 ≤ k →
      (editorScroll cur termW termH off).y = off.y + k) ∧
    (cur.x < off.x → (editorScroll cur termW termH off).x = cur.x) ∧
    (cur.x + 1 = off.x + termW + kx → 1 ≤ kx →
      (editorScroll cur termW termH off).x = off.x + kx) := by
  refine ⟨fun h => ?_, fun h hk => ?_, fun h => ?_, fun h hk => ?_⟩ <;>
    simp only [editorScroll] <;> split
  · rfl
  · omega
  · omega
  · split
    · omega
    · omega
  · rfl
  · omega
  · omega
  · split
    · omega
    · omega

/-- Witness for C7 at concrete states: a cursor 5 lines below and 11 columns
right of a 12-line/80-column window advances the offset by exactly (11, 5);
a cursor above/left of the window at offset (5, 7) pulls it to the cursor. -/
theorem c7_scroll_witness :
    (editorScroll ⟨90, 14⟩ 80 12 ⟨0, 0⟩).y = 0 + 5 ∧
    (editorScroll ⟨90, 14⟩ 80 12 ⟨0, 0⟩).x = 0 + 11 ∧
    (editorScroll ⟨2, 3⟩ 80 12 ⟨5, 7⟩).y = 3 ∧
    (editorScroll ⟨2, 3⟩ 80 12 ⟨5, 7⟩).x = 2 :=
  ⟨(c7_scroll ⟨90, 14⟩ ⟨0, 0⟩ 80 12 5 11).2.1 (by decide) (by decide),
   (c7_scroll ⟨90, 14⟩ ⟨0, 0⟩ 80 12 5 11).2.2.2 (by decide) (by decide),
   (c7_scroll ⟨2, 3⟩ ⟨5, 7⟩ 80 12 1 1).1 (by decide),
   (c7_scroll ⟨2, 3⟩ ⟨5, 7⟩ 80 12 1 1).2.2.1 (by decide)⟩

/-! ### C6 — insert_newline / delete_backward round trip -/

theorem row_mk_updateLen (r : Row) (h : r.len = updateLen r.string) :
    Row.mk r.string (updateLen r.string) = r := by
  cases r
  simp at h
  simp [h]

/-- `del_char_backward` at column 0 of row `pre.length + 1` merges that row
into the one above it (by `push_str`) and removes it. -/
theorem docDelBackward_join (pre post : List Row) (fn : Option String) (a c : Row) :
    docDelBackward ⟨pre ++ a :: c :: post, fn, true⟩ ⟨0, pre.length + 1⟩ =
      some ⟨pre ++ (rowPushStr a c.string) :: post, fn, true⟩ := by
  simp only [docDelBackward, ne_eq, not_true_eq_false, if_false,
    Nat.zero_lt_succ, if_true, Nat.add_sub_cancel,
    getElem?_mid_succ pre a c post, getElem?_mid pre a (c :: post),
    Option.getD_some, set_mid pre a (c :: post)]
  rw [if_pos (by simp)]
  rw [eraseIdx_mid pre (rowPushStr a c.string) c post]

/-- C6 counterexample: on the single-row document `["a\tb"]` with the
in-bounds position `{x:1, y:0}`, `insert_newline` then `del_char_backward`
at the join point yields `["a    b"]` — the tab was re-pushed as four
spaces, so the original row content is not restored. -/
theorem c6_round_trip_counterexample :
    ((docInsertNewline ⟨[rowFrom ("a\tb".data)], none, false⟩ ⟨1, 0⟩).bind
        (fun d => docDelBackward d ⟨0, 1⟩)).map (fun d => d.rows.map Row.string) =
      some [("a    b".data)] ∧
    ("a    b".data) ≠ ("a\tb".data) := by
  refine ⟨by rfl, by decide⟩

/-- C6 amended: provided the row contains no tab character and the split
position `x` is a valid character boundary of the row's bytes (so that
neither `split_at` panics nor `push_str` rewrites a tab as spaces),
`insert_newline` at `{x, y}` followed by `del_char_backward` at `{0, y + 1}`
restores the original rows exactly. -/
theorem c6_split_merge_amended (pre post : List Row) (fn : Option String) (b : Bool)
    (r : Row) (x : Nat) (l rr : List Char)
    (hsplit : splitAt? r.string x = some (l, rr))
    (hno : charCount r.string '\t' = 0)
    (hwf : r.len = updateLen r.string) :
    (docInsertNewline ⟨pre ++ r :: post, fn, b⟩ ⟨x, pre.length⟩).bind
      (fun d => docDelBackward d ⟨0, pre.length + 1⟩) =
      some ⟨pre ++ r :: post, fn, true⟩ := by
  have hlr : l ++ rr = r.string := splitAt?_append r.string x l rr hsplit
  have hsum : charCount l '\t' + charCount rr '\t' = 0 := by
    rw [← charCount_append, hlr, hno]
  have hl0 : charCount l '\t' = 0 := by omega
  have hr0 : charCount rr '\t' = 0 := by omega
  have hget : (pre ++ r :: post)[pre.length]? = some r := getElem?_mid pre r post
  by_cases hx : x = r.len
  · -- the `at.x == row.len()` branch: an empty row is inserted below
    have h1 : docInsertNewline ⟨pre ++ r :: post, fn, b⟩ ⟨x, pre.length⟩ =
        some ⟨pre ++ r :: rowDefault :: post, fn, true⟩ := by
      simp only [docInsertNewline, hget, Option.getD_some]
      rw [if_neg (by simp), if_pos hx, listInsertAt_mid pre r post rowDefault]
    rw [h1, Option.some_bind, docDelBackward_join pre post fn r rowDefault]
    have : rowPushStr r (rowDefault.string) = r := by
      rw [show rowDefault.string = ([] : List Char) from rfl,
        rowPushStr_no_tab r [] (by simp [charCount])]
      simpa using row_mk_updateLen r hwf
    rw [this]
  · -- the split branch
    have h1 : docInsertNewline ⟨pre ++ r :: post, fn, b⟩ ⟨x, pre.length⟩ =
        some ⟨pre ++ (rowPushStr (rowClear r) l) :: (rowPushStr rowDefault rr) :: post,
          fn, true⟩ := by
      simp only [docInsertNewline, hget, Option.getD_some, hsplit]
      rw [if_neg (by simp), if_neg hx]
      rw [set_mid pre r post (rowPushStr (rowClear r) l),
        listInsertAt_mid pre (rowPushStr (rowClear r) l) post (rowPushStr rowDefault rr)]
    rw [h1, Option.some_bind,
      docDelBackward_join pre post fn (rowPushStr (rowClear r) l) (rowPushStr rowDefault rr)]
    have hnew : (rowPushStr rowDefault rr).string = rr := by
      rw [rowPushStr_no_tab rowDefault rr hr0]
      simp [rowDefault]
    have hcurr : rowPushStr (rowClear r) l = Row.mk l (updateLen l) := by
      rw [rowPushStr_no_tab (rowClear r) l hl0]
      simp [rowClear]
    have hmerge : rowPushStr (rowPushStr (rowClear r) l) ((rowPushStr rowDefault rr).string) = r := by
      rw [hnew, hcurr, rowPushStr_no_tab (Row.mk l (updateLen l)) rr (by exact hr0)]
      simp only [hlr]
      exact row_mk_updateLen r hwf
    rw [hmerge]

/-- Witness for C6's amended theorem: splitting `"ab"` at byte/column 1 and
merging back restores the document `["ab"]`. -/
theorem c6_split_merge_amended_witness :
    (docInsertNewline ⟨[rowFrom ("ab".data)], none, false⟩ ⟨1, 0⟩).bind
      (fun d => docDelBackward d ⟨0, 1⟩) = some ⟨[rowFrom ("ab".data)], none, true⟩ :=
  c6_split_merge_amended [] [] none false (rowFrom ("ab".data)) 1
    ("a".data) ("b".data) (by rfl) (by rfl) (by rfl)

/-! ### C8 — save/open round trip -/

/-- C8: saving the two-row document `["hello", "world"]` writes
`"hello\nworld\n"` (each row's raw text followed by one line feed) and clears
`dirty`; reopening that content yields the same rows with `dirty = false`. -/
theorem c8_save_open_round_trip :
    docSave true ⟨[rowFrom ("hello".data), rowFrom ("world".data)], some "f", true⟩ =
      some (⟨[rowFrom ("hello".data), rowFrom ("world".data)], some "f", false⟩,
        some ("hello\nworld\n".data)) ∧
    docOpen "f" ("hello\nworld\n".data) =
      ⟨[rowFrom ("hello".data), rowFrom ("world".data)], some "f", false⟩ := by
  constructor
  · rfl
  · rfl

/-! ### C9 — save with no filename -/

/-- C9: `Document::save` on a document whose `filename` is `None` skips the
whole write (no file-system operation is attempted, so it cannot fail and
returns `Ok(())`) yet still clears the `dirty` flag. -/
theorem c9_save_unnamed (d : Document) (fsOk : Bool) (h : d.filename = none) :
    docSave fsOk d = some (⟨d.rows, none, false⟩, none) := by
  simp [docSave, h]

/-- Witness for C9 at a concrete dirty unnamed document. -/
theorem c9_save_unnamed_witness :
    docSave true ⟨[rowFrom ("x".data)], none, true⟩ =
      some (⟨[rowFrom ("x".data)], none, false⟩, none) :=
  c9_save_unnamed ⟨[rowFrom ("x".data)], none, true⟩ true rfl

/-! ### C10 — mutators set `dirty` unconditionally -/

/-- C10: every mutating document operation that completes (does not panic)
leaves `dirty = true`, even when no row content changes: in particular
`del_char_backward` at `{0,0}` and `del_char_forward` at the end of the
document (column 0 of line `rows.len()`) return the rows unchanged but
dirty. -/
theorem c10_mutators_dirty (d : Document) (p : Position) (c : Char) :
    (∀ d', docInsert d p c = some d' → d'.dirty = true) ∧
    (∀ d', docInsertNewline d p = some d' → d'.dirty = true) ∧
    (∀ d', docDelBackward d p = some d' → d'.dirty = true) ∧
    (∀ d', docDelForward d p = some d' → d'.dirty = true) ∧
    docDelBackward d ⟨0, 0⟩ = some ⟨d.rows, d.filename, true⟩ ∧
    docDelForward d ⟨0, d.rows.length⟩ = some ⟨d.rows, d.filename, true⟩ := by
  refine ⟨?_, ?_, ?_, ?_, ?_, ?_⟩
  · intro d' h
    simp only [docInsert] at h
    split at h
    · cases h; rfl
    · split at h
      · cases h
      · split at h
        · cases h; rfl
        · obtain ⟨_, _, he⟩ := Option.map_eq_some'.mp h
          cases he; rfl
  · intro d' h
    simp only [docInsertNewline] at h
    split at h
    · cases h; rfl
    · split at h
      · cases h; rfl
      · split at h
        · cases h
        · split at h
          · cases h
          · cases h; rfl
  · intro d' h
    simp only [docDelBackward] at h
    split at h
    · split at h
      · obtain ⟨_, _, he⟩ := Option.map_eq_some'.mp h
        cases he; rfl
      · obtain ⟨_, _, he⟩ := Option.map_eq_some'.mp h
        cases he; rfl
    · split at h
      · cases h; rfl
      · cases h; rfl
  · intro d' h
    simp only [docDelForward] at h
    split at h
    · split at h
      · obtain ⟨_, _, he⟩ := Option.map_eq_some'.mp h
        cases he; rfl
      · obtain ⟨_, _, he⟩ := Option.map_eq_some'.mp h
        cases he; rfl
    · split at h
      · cases h; rfl
      · cases h; rfl
  · simp [docDelBackward]
  · have hrow : (d.rows[d.rows.length]?) = none := by
      simp
    simp [docDelForward, hrow, rowDefault]

/-- Witness for C10: the no-change deletions on a concrete document are
dirty no-ops, and a completed insert is dirty. -/
theorem c10_mutators_dirty_witness :
    docDelBackward ⟨[rowFrom ("ab".data)], none, false⟩ ⟨0, 0⟩ =
      some ⟨[rowFrom ("ab".data)], none, true⟩ ∧
    (Document.mk [rowPush (rowFrom ("ab".data)) 'q'] none true).dirty = true :=
  ⟨(c10_mutators_dirty ⟨[rowFrom ("ab".data)], none, false⟩ ⟨0, 0⟩ 'q').2.2.2.2.1,
   (c10_mutators_dirty ⟨[rowFrom ("ab".data)], none, false⟩ ⟨2, 0⟩ 'q').1
     (Document.mk [rowPush (rowFrom ("ab".data)) 'q'] none true) (by rfl)⟩

end Hecto
